import Mathlib

/-!
Verification of the A2C trainer in `hrl/experiments/a2c_tf2.py`.

Data is embedded over exact arithmetic: numpy float arrays become `List ℚ`
(`List ℝ` where the source applies transcendental functions `exp`/`log`),
the done flags become `List Bool` (the source stores the booleans returned
by `env.step` in a float array holding 0.0/1.0, and uses them as
`(1 - dones[t])`), and the environment / model collaborators become
explicit functions threaded through the training loop.
-/

namespace A2C

/-- Hyperparameter gamma: self.params["gamma"] = 0.99 in A2CAgent. -/
def gammaP : ℚ := 99 / 100

/-- Hyperparameter value weight: self.params["value"] = 0.5 in A2CAgent. -/
def valueP : ℚ := 1 / 2

/-- Hyperparameter entropy weight: self.params["entropy"] = 0.0001 in A2CAgent. -/
noncomputable def entropyP : ℝ := 1 / 10000

/-- Factor `1 - dones[t]` in `_returns_advantages`: the done flag is stored as
0.0 / 1.0 in a float array, so the factor is 0 when done, 1 otherwise. -/
def doneFactor (d : Bool) : ℚ := if d then 0 else 1

/-- The backward recurrence of `A2CAgent._returns_advantages`
(`for t in reversed(range(rewards.shape[0])): returns[t] = rewards[t] +
gamma * returns[t+1] * (1 - dones[t])`), written as structural recursion:
the head entry is computed from the tail's head, and past the end of the
output the virtual slot holds `next_value` (the bootstrap). -/
def computeReturns (gamma next_value : ℚ) : List ℚ → List Bool → List ℚ
  | [], _ => []
  | _ :: _, [] => []
  | r :: rs, d :: ds =>
      let rest := computeReturns gamma next_value rs ds
      (r + gamma * rest.headD next_value * doneFactor d) :: rest

/-- Method `A2CAgent._returns_advantages`: returns via the backward recurrence
with `gamma = 0.99`, advantages as the elementwise difference
`returns - values`. -/
def returnsAdvantages (rewards : List ℚ) (dones : List Bool)
    (values : List ℚ) (next_value : ℚ) : List ℚ × List ℚ :=
  let returns := computeReturns gammaP next_value rewards dones
  (returns, List.zipWith (· - ·) returns values)

theorem computeReturns_length (gamma nv : ℚ) :
    ∀ (rw : List ℚ) (dn : List Bool), dn.length = rw.length →
      (computeReturns gamma nv rw dn).length = rw.length
  | [], _, _ => rfl
  | _ :: _, [], h => by simp at h
  | _ :: rs, _ :: ds, h => by
      simp only [computeReturns, List.length_cons]
      exact congrArg Nat.succ
        (computeReturns_length gamma nv rs ds (Nat.succ_injective h))

theorem computeReturns_getD (gamma nv : ℚ) :
    ∀ (rw : List ℚ) (dn : List Bool), dn.length = rw.length →
    ∀ t, t < rw.length →
      (computeReturns gamma nv rw dn).getD t 0 =
        rw.getD t 0 +
          gamma * ((computeReturns gamma nv rw dn).getD (t + 1) nv) *
            doneFactor (dn.getD t false)
  | [], _, _, t, ht => by simp at ht
  | _ :: _, [], h, _, _ => by simp at h
  | r :: rs, d :: ds, h, 0, _ => by
      simp only [computeReturns, List.getD_cons_zero, List.getD_cons_succ]
      rcases hr : computeReturns gamma nv rs ds with _ | ⟨x, xs⟩ <;> simp
  | r :: rs, d :: ds, h, t + 1, ht => by
      simp only [computeReturns, List.getD_cons_succ]
      exact computeReturns_getD gamma nv rs ds (Nat.succ_injective h) t
        (Nat.lt_of_succ_lt_succ ht)

/-- Evaluating `computeReturns` on an all-zero-reward, never-done segment:
each entry discounts the bootstrap by one more factor of `gamma`. -/
theorem computeReturns_replicate_zero (gamma nv : ℚ) :
    ∀ (n t : ℕ), t < n →
      (computeReturns gamma nv (List.replicate n 0)
          (List.replicate n false)).getD t 0 = nv * gamma ^ (n - t)
  | 0, t, ht => absurd ht (Nat.not_lt_zero t)
  | n + 1, 0, _ => by
      have hhead :
          (computeReturns gamma nv (List.replicate n 0)
              (List.replicate n false)).headD nv = nv * gamma ^ n := by
        cases n with
        | zero => simp [computeReturns]
        | succ m =>
            have := computeReturns_replicate_zero gamma nv (m + 1) 0
              (Nat.succ_pos m)
            rcases hc : computeReturns gamma nv (List.replicate (m + 1) 0)
                (List.replicate (m + 1) false) with _ | ⟨x, xs⟩
            · have hlen := computeReturns_length gamma nv
                (List.replicate (m + 1) 0) (List.replicate (m + 1) false)
                (by simp)
              rw [hc] at hlen
              simp at hlen
            · rw [hc] at this
              simpa using this
      simp only [List.replicate, computeReturns, doneFactor, if_neg
        Bool.false_ne_true, List.getD_cons_zero, Bool.false_eq_true,
        ite_false, hhead]
      rw [Nat.sub_zero, pow_succ]
      ring
  | n + 1, t + 1, ht => by
      simp only [List.replicate, computeReturns, List.getD_cons_succ]
      rw [computeReturns_replicate_zero gamma nv n t
        (Nat.lt_of_succ_lt_succ ht), Nat.succ_sub_succ]

/-- C1: the returns obey the backward bootstrap recurrence with
`gamma = 0.99`; index `n` is the virtual bootstrap slot, the output has
exactly `n` entries. -/
theorem returnsAdvantages_recurrence (rw vs : List ℚ) (dn : List Bool)
    (nv : ℚ) (hd : dn.length = rw.length) (hv : vs.length = rw.length) :
    ((returnsAdvantages rw dn vs nv).1.length = rw.length) ∧
    ∀ t, t < rw.length →
      (returnsAdvantages rw dn vs nv).1.getD t 0 =
        rw.getD t 0 +
          gammaP *
            (if t + 1 < rw.length then
              (returnsAdvantages rw dn vs nv).1.getD (t + 1) 0 else nv) *
          doneFactor (dn.getD t false) := by
  refine ⟨computeReturns_length gammaP nv rw dn hd, fun t ht => ?_⟩
  have h := computeReturns_getD gammaP nv rw dn hd t ht
  have hlen := computeReturns_length gammaP nv rw dn hd
  by_cases hnext : t + 1 < rw.length
  · rw [if_pos hnext]
    have heq : (computeReturns gammaP nv rw dn).getD (t + 1) nv =
        (computeReturns gammaP nv rw dn).getD (t + 1) 0 := by
      rw [List.getD_eq_getElem _ _ (hlen ▸ hnext),
        List.getD_eq_getElem _ _ (hlen ▸ hnext)]
    rw [heq] at h
    simpa [returnsAdvantages] using h
  · rw [if_neg hnext]
    have heq : (computeReturns gammaP nv rw dn).getD (t + 1) nv = nv :=
      List.getD_eq_default _ _ (by omega)
    rw [heq] at h
    simpa [returnsAdvantages] using h

/-- Witness for `returnsAdvantages_recurrence` at the spec's 4-step
scenario. -/
theorem returnsAdvantages_recurrence_witness :
    ([false, false, false, true].length = [(1 : ℚ), 1, 1, 1].length) ∧
    (returnsAdvantages [1, 1, 1, 1] [false, false, false, true]
        [0, 0, 0, 0] 0).1.length = [(1 : ℚ), 1, 1, 1].length := by
  have h := returnsAdvantages_recurrence [1, 1, 1, 1]
    [0, 0, 0, 0] [false, false, false, true] 0 (by simp) (by simp)
  exact ⟨by simp, h.1⟩

/-- C2: a done flag truncates the bootstrap: `returns[t] = rewards[t]`
there, and a single-step done batch yields `[reward]` for every discount
factor and bootstrap value. -/
theorem returns_done_truncates (rw vs : List ℚ) (dn : List Bool) (nv : ℚ)
    (hd : dn.length = rw.length) (hv : vs.length = rw.length) :
    (∀ t, t < rw.length → dn.getD t false = true →
      (returnsAdvantages rw dn vs nv).1.getD t 0 = rw.getD t 0) ∧
    (∀ gamma reward value bootstrap : ℚ,
      (computeReturns gamma bootstrap [reward] [true]) = [reward] ∧
      (returnsAdvantages [reward] [true] [value] bootstrap).1 = [reward]) := by
  constructor
  · intro t ht hdone
    have h := computeReturns_getD gammaP nv rw dn hd t ht
    rw [hdone] at h
    simpa [returnsAdvantages, doneFactor] using h
  · intro gamma reward value bootstrap
    constructor
    · simp [computeReturns, doneFactor]
    · simp [returnsAdvantages, computeReturns, doneFactor]

/-- Witness for `returns_done_truncates`: the single-step done batch with
reward 5 and bootstrap 100 returns `[5]`. -/
theorem returns_done_truncates_witness :
    (returnsAdvantages [5] [true] [0] 100).1 = [5] :=
  ((returns_done_truncates [5] [0] [true] 100 (by simp) (by simp)).2
    gammaP 5 0 100).2

/-- C3: `advantages[t] = returns[t] - values[t]` for every index. -/
theorem advantages_eq_returns_sub_values (rw vs : List ℚ) (dn : List Bool)
    (nv : ℚ) (hd : dn.length = rw.length) (hv : vs.length = rw.length) :
    ∀ t, t < rw.length →
      (returnsAdvantages rw dn vs nv).2.getD t 0 =
        (returnsAdvantages rw dn vs nv).1.getD t 0 - vs.getD t 0 := by
  intro t ht
  have hlen := computeReturns_length gammaP nv rw dn hd
  have h1 : t < (computeReturns gammaP nv rw dn).length := hlen ▸ ht
  have h2 : t < vs.length := hv ▸ ht
  have hz : t < (List.zipWith (· - ·) (computeReturns gammaP nv rw dn)
      vs).length := by
    rw [List.length_zipWith]
    exact lt_min h1 h2
  simp only [returnsAdvantages]
  rw [List.getD_eq_getElem _ _ hz, List.getD_eq_getElem _ _ h1,
    List.getD_eq_getElem _ _ h2, List.getElem_zipWith]

/-- Witness for `advantages_eq_returns_sub_values` at a concrete batch. -/
theorem advantages_eq_returns_sub_values_witness :
    (returnsAdvantages [5] [true] [2] 100).2.getD 0 0 =
      (returnsAdvantages [5] [true] [2] 100).1.getD 0 0 -
        [(2 : ℚ)].getD 0 0 :=
  advantages_eq_returns_sub_values [5] [2] [true] 100 (by simp) (by simp) 0
    (by simp)

/-- C5: with all-zero rewards and no dones, `returns[t]` is the bootstrap
discounted by `gamma ^ (n - t)`. -/
theorem returns_zero_rewards_geometric (n : ℕ) (vs : List ℚ) (nv : ℚ)
    (hv : vs.length = n) :
    ∀ t, t < n →
      (returnsAdvantages (List.replicate n 0) (List.replicate n false)
          vs nv).1.getD t 0 = nv * gammaP ^ (n - t) := by
  intro t ht
  simpa [returnsAdvantages] using
    computeReturns_replicate_zero gammaP nv n t ht

/-- Witness for `returns_zero_rewards_geometric`: two zero-reward steps
discount a bootstrap of 1 to `gamma ^ 2` at index 0. -/
theorem returns_zero_rewards_geometric_witness :
    (returnsAdvantages (List.replicate 2 0) (List.replicate 2 false)
        [0, 0] 1).1.getD 0 0 = 1 * gammaP ^ (2 - 0) :=
  returns_zero_rewards_geometric 2 [0, 0] 1 (by simp) 0 (by norm_num)

/-! ### Training loop (`A2CAgent.train`)

The gym environment is embedded as explicit state passing: `reset` and
`step` consume and return the environment's internal state `S` alongside
the observation `O`, reward, and done flag.  The model's
`action_value` query is abstracted as a function `O → ℤ × ℚ` (one sampled
action and one value estimate per observation); the gradient update
(`train_on_batch`) mutates only model parameters, which live outside the
loop state carried across iterations. -/

/-- The environment contract: `reset() -> observation` and
`step(action) -> (observation, reward, done, info)`, with the internal
state made explicit. -/
structure Env (S O : Type) where
  reset : S → O × S
  step : S → ℤ → O × ℚ × Bool × S

/-- The loop-carried state of `A2CAgent.train`: the current observation
`next_obs`, the environment, and the episode-reward list `ep_rews`. -/
structure LoopState (S O : Type) where
  obs : O
  env : S
  epRews : List ℚ

/-- Statement `ep_rews[-1] += rewards[step]`: add a reward to the last entry. -/
def addLast : List ℚ → ℚ → List ℚ
  | [], _ => []
  | [a], x => [a + x]
  | a :: b :: rest, x => a :: addLast (b :: rest) x

/-- The episode-reward bookkeeping of one loop iteration:
`ep_rews[-1] += rewards[step]`, then `ep_rews.append(0.0)` if done. -/
def epStep (er : List ℚ) (t : ℚ × Bool) : List ℚ :=
  if t.2 then addLast er t.1 ++ [0] else addLast er t.1

/-- One iteration of the inner `for step in range(batch_sz)` loop of
`A2CAgent.train`: query the model, step the environment, accumulate the
reward, and on done append a fresh accumulator and reset the environment
(discarding the step's returned observation).  Returns the recorded
`(reward, done)` pair and the new loop state. -/
def loopStep (env : Env S O) (agent : O → ℤ × ℚ) (st : LoopState S O) :
    (ℚ × Bool) × LoopState S O :=
  let av := agent st.obs
  let sr := env.step st.env av.1
  let r := sr.2.1
  let d := sr.2.2.1
  let er1 := addLast st.epRews r
  if d then
    let rs := env.reset sr.2.2.2
    ((r, d), ⟨rs.1, rs.2, er1 ++ [0]⟩)
  else
    ((r, d), ⟨sr.1, sr.2.2.2, er1⟩)

/-- Runs `batch_sz` iterations of the inner loop, returning the recorded
`(reward, done)` trace and the final loop state. -/
def runSteps (env : Env S O) (agent : O → ℤ × ℚ) :
    ℕ → LoopState S O → List (ℚ × Bool) × LoopState S O
  | 0, st => ([], st)
  | n + 1, st =>
      let r := loopStep env agent st
      let rest := runSteps env agent n r.2
      (r.1 :: rest.1, rest.2)

/-- Bootstrap query `_, next_value = self.model.action_value(next_obs)`: the
bootstrap value is the model's value estimate of the current carried
observation. -/
def bootstrapValue (agent : O → ℤ × ℚ) (st : LoopState S O) : ℚ :=
  (agent st.obs).2

/-- The outer `for update in range(updates)` loop: each iteration runs
`batch_sz` environment steps; the bootstrap query, estimator call and
gradient step that follow mutate only model parameters, not the carried
loop state. -/
def trainLoop (env : Env S O) (agent : O → ℤ × ℚ) (batchSz : ℕ) :
    ℕ → LoopState S O → List (ℚ × Bool) × LoopState S O
  | 0, st => ([], st)
  | u + 1, st =>
      let b := runSteps env agent batchSz st
      let rest := trainLoop env agent batchSz u b.2
      (b.1 ++ rest.1, rest.2)

/-- Initialization `ep_rews = [0.0]; next_obs = env.reset()`: the state at the top of
`A2CAgent.train`. -/
def initState (env : Env S O) (s0 : S) : LoopState S O :=
  ⟨(env.reset s0).1, (env.reset s0).2, [0]⟩

/-- Method `A2CAgent.train`: run the configured number of outer updates and
return `ep_rews`. -/
def train (env : Env S O) (agent : O → ℤ × ℚ) (batchSz updates : ℕ)
    (s0 : S) : List ℚ :=
  (trainLoop env agent batchSz updates (initState env s0)).2.epRews

/-- The chronological `(reward, done)` trace of a whole training run. -/
def trainTrace (env : Env S O) (agent : O → ℤ × ℚ) (batchSz updates : ℕ)
    (s0 : S) : List (ℚ × Bool) :=
  (trainLoop env agent batchSz updates (initState env s0)).1

/-- Totals of the done-delimited episodes of a `(reward, done)` trace,
followed by the in-progress total of the unfinished trailing episode
(0 when the trace ends on a done or is empty).  This is the spec's
reading of the episode-reward history, defined independently of the
loop's accumulator updates. -/
def episodeTotals : List (ℚ × Bool) → List ℚ
  | [] => [0]
  | (r, d) :: rest =>
      if d then r :: episodeTotals rest
      else
        match episodeTotals rest with
        | [] => [r]
        | x :: xs => (r + x) :: xs

/-- Add a constant to the first entry. -/
def addFirst (a : ℚ) : List ℚ → List ℚ
  | [] => []
  | x :: xs => (a + x) :: xs

theorem episodeTotals_ne_nil : ∀ l : List (ℚ × Bool), episodeTotals l ≠ []
  | [] => by simp [episodeTotals]
  | (r, d) :: rest => by
      by_cases hd : d
      · simp [episodeTotals, hd]
      · simp only [episodeTotals, hd, if_false, Bool.false_eq_true]
        rcases h : episodeTotals rest with _ | ⟨x, xs⟩ <;> simp

theorem addLast_append :
    ∀ (pre : List ℚ) (a x : ℚ), addLast (pre ++ [a]) x = pre ++ [a + x]
  | [], a, x => by simp [addLast]
  | [b], a, x => by simp [addLast]
  | b :: c :: rest, a, x => by
      have ih := addLast_append (c :: rest) a x
      simp only [List.cons_append, addLast] at ih ⊢
      exact congrArg (List.cons b) ih

theorem foldl_epStep_append :
    ∀ (l : List (ℚ × Bool)) (pre : List ℚ) (a : ℚ),
      List.foldl epStep (pre ++ [a]) l = pre ++ addFirst a (episodeTotals l)
  | [], pre, a => by simp [episodeTotals, addFirst]
  | (r, d) :: rest, pre, a => by
      simp only [List.foldl_cons]
      by_cases hd : d
      · have hstep : epStep (pre ++ [a]) (r, d) = (pre ++ [a + r]) ++ [0] := by
          simp [epStep, hd, addLast_append]
        rw [hstep, foldl_epStep_append rest (pre ++ [a + r]) 0]
        rcases he : episodeTotals rest with _ | ⟨x, xs⟩
        · exact absurd he (episodeTotals_ne_nil rest)
        · simp [episodeTotals, hd, he, addFirst, List.append_assoc]
      · have hstep : epStep (pre ++ [a]) (r, d) = pre ++ [a + r] := by
          simp [epStep, hd, addLast_append]
        rw [hstep, foldl_epStep_append rest pre (a + r)]
        rcases he : episodeTotals rest with _ | ⟨x, xs⟩
        · exact absurd he (episodeTotals_ne_nil rest)
        · simp [episodeTotals, hd, he, addFirst, add_assoc]

theorem loopStep_epRews (env : Env S O) (agent : O → ℤ × ℚ)
    (st : LoopState S O) :
    (loopStep env agent st).2.epRews =
      epStep st.epRews (loopStep env agent st).1 := by
  simp only [loopStep, epStep]
  by_cases hd : (env.step st.env (agent st.obs).1).2.2.1 <;> simp [hd]

theorem runSteps_epRews (env : Env S O) (agent : O → ℤ × ℚ) :
    ∀ (n : ℕ) (st : LoopState S O),
      (runSteps env agent n st).2.epRews =
        List.foldl epStep st.epRews (runSteps env agent n st).1
  | 0, st => rfl
  | n + 1, st => by
      simp only [runSteps, List.foldl_cons]
      rw [runSteps_epRews env agent n (loopStep env agent st).2,
        loopStep_epRews]

theorem trainLoop_epRews (env : Env S O) (agent : O → ℤ × ℚ)
    (batchSz : ℕ) :
    ∀ (u : ℕ) (st : LoopState S O),
      (trainLoop env agent batchSz u st).2.epRews =
        List.foldl epStep st.epRews (trainLoop env agent batchSz u st).1
  | 0, st => rfl
  | u + 1, st => by
      simp only [trainLoop, List.foldl_append]
      rw [trainLoop_epRews env agent batchSz u, runSteps_epRews]

/-- C8: train returns the episode-reward history: the totals of the
episodes that finished during training, one entry per done-delimited
segment of the run's `(reward, done)` trace, followed by the in-progress
accumulator for the unfinished trailing episode. -/
theorem train_returns_episode_totals (env : Env S O)
    (agent : O → ℤ × ℚ) (batchSz updates : ℕ) (s0 : S) :
    train env agent batchSz updates s0 =
      episodeTotals (trainTrace env agent batchSz updates s0) := by
  unfold train trainTrace
  rw [trainLoop_epRews]
  have h0 : (initState env s0).epRews = [] ++ [(0 : ℚ)] := rfl
  rw [h0, foldl_epStep_append]
  rcases he : episodeTotals
      (trainLoop env agent batchSz updates (initState env s0)).1 with
    _ | ⟨x, xs⟩
  · exact absurd he (episodeTotals_ne_nil _)
  · simp [addFirst]

/-- A concrete environment for the spec's accumulator scenario: every
step yields reward 1, and the done flag is raised exactly on the fifth
step (0-indexed step 4); the state counts steps taken. -/
def c6Env : Env ℕ Unit :=
  ⟨fun s => ((), s), fun s _ => ((), 1, s == 4, s + 1)⟩

/-- An agent oracle for the accumulator scenario (its outputs are
irrelevant to the episode-reward bookkeeping). -/
def c6Agent : Unit → ℤ × ℚ := fun _ => (0, 0)

/-- C6: a 10-step rollout with rewards all 1 and a done exactly at step 4
leaves `ep_rews = [5, 5]`: exactly one finalized episode total of 5, and
an in-progress accumulator (the last entry) of 5. -/
theorem episode_accumulator_scenario :
    (runSteps c6Env c6Agent 10 ⟨(), 0, [0]⟩).2.epRews = [5, 5] ∧
    (runSteps c6Env c6Agent 10 ⟨(), 0, [0]⟩).2.epRews.dropLast = [5] ∧
    (runSteps c6Env c6Agent 10 ⟨(), 0, [0]⟩).2.epRews.getLastD 0 = 5 := by
  refine ⟨?_, ?_, ?_⟩ <;>
    norm_num [runSteps, loopStep, addLast, c6Env, c6Agent]

theorem runSteps_succ_state (env : Env S O) (agent : O → ℤ × ℚ) :
    ∀ (n : ℕ) (st : LoopState S O),
      (runSteps env agent (n + 1) st).2 =
        (loopStep env agent (runSteps env agent n st).2).2
  | 0, st => rfl
  | n + 1, st => by
      simp only [runSteps]
      exact runSteps_succ_state env agent n (loopStep env agent st).2

/-- C7: when a step returns done, the observation carried into the next
iteration is the one obtained from `env.reset()` applied after that step,
not the step's own returned next-observation; hence when the last step of
a batch is a done, the bootstrap value is the agent's value estimate at
the fresh-episode observation. -/
theorem done_resets_observation (env : Env S O) (agent : O → ℤ × ℚ)
    (st0 mid : LoopState S O) (n : ℕ)
    (hmid : (runSteps env agent n st0).2 = mid)
    (hdone : (env.step mid.env (agent mid.obs).1).2.2.1 = true) :
    (runSteps env agent (n + 1) st0).2.obs =
      (env.reset (env.step mid.env (agent mid.obs).1).2.2.2).1 ∧
    bootstrapValue agent (runSteps env agent (n + 1) st0).2 =
      (agent (env.reset (env.step mid.env (agent mid.obs).1).2.2.2).1).2 := by
  rw [runSteps_succ_state, hmid]
  constructor
  · simp [loopStep, hdone]
  · simp [bootstrapValue, loopStep, hdone]

/-- A one-step always-done environment: `reset` yields observation 100,
`step` yields next-observation 7 with reward 1 and done. -/
def c7Env : Env ℕ ℕ :=
  ⟨fun s => (100, s), fun s _ => (7, 1, true, s + 1)⟩

/-- An agent oracle whose value estimate is the observation itself. -/
def c7Agent : ℕ → ℤ × ℚ := fun o => (0, (o : ℚ))

/-- Witness for `done_resets_observation`: after a done step the carried
observation is the reset observation 100 (not the step's 7) and the
bootstrap value is taken there. -/
theorem done_resets_observation_witness :
    (runSteps c7Env c7Agent 1 ⟨3, 0, [0]⟩).2.obs =
      (c7Env.reset (c7Env.step 0 (c7Agent 3).1).2.2.2).1 ∧
    bootstrapValue c7Agent (runSteps c7Env c7Agent 1 ⟨3, 0, [0]⟩).2 =
      (c7Agent (c7Env.reset (c7Env.step 0 (c7Agent 3).1).2.2.2).1).2 :=
  done_resets_observation c7Env c7Agent ⟨3, 0, [0]⟩ ⟨3, 0, [0]⟩ 0 rfl rfl

/-! ### Losses (`A2CAgent._logits_loss`)

The loss terms apply `exp`/`log`, so they are embedded over `ℝ`.
`SparseCategoricalCrossentropy(from_logits=True)` called with
`sample_weight=advantages` is the advantage-weighted mean of the
per-sample negative log-softmax at the taken action (Keras
sum-over-batch-size reduction).  `categorical_crossentropy(y_true,
y_pred, from_logits=True)` lowers to softmax-cross-entropy with logits:
`-Σ_j y_true[j] * log_softmax(y_pred)[j]`, with `y_true` used as raw
weights — it is *not* passed through a softmax.  The loss function
returns the scalar policy loss minus `entropyP` times the per-sample
entropy vector; Keras mean-reduces that returned vector. -/

noncomputable def logSumExp (L : List ℝ) : ℝ :=
  Real.log ((L.map Real.exp).sum)

noncomputable def logSoftmax (L : List ℝ) (j : ℕ) : ℝ :=
  L.getD j 0 - logSumExp L

/-- Per-sample sparse categorical cross-entropy from logits at the taken
action `a`. -/
noncomputable def sparseCE (a : ℕ) (L : List ℝ) : ℝ :=
  -(logSoftmax L a)

/-- Embedding of `tf.keras.losses.categorical_crossentropy(yTrue, L, from_logits=True)`
per sample: the target weights `yTrue` multiply the log-softmax entries
as given. -/
noncomputable def softmaxCEWithLogits (yTrue L : List ℝ) : ℝ :=
  -(((List.range L.length).map fun j => yTrue.getD j 0 * logSoftmax L j).sum)

/-- Call `weighted_sparse_ce(actions, logits, sample_weight=advantages)`:
advantage-weighted per-sample losses, sum-over-batch-size reduction. -/
noncomputable def weightedSparseCE (actsAdvs : List (ℕ × ℝ))
    (logits : List (List ℝ)) : ℝ :=
  (List.zipWith (fun p L => p.2 * sparseCE p.1 L) actsAdvs logits).sum /
    logits.length

/-- The mean of the per-sample `entropy_loss` entries computed by the
source (`categorical_crossentropy(logits, logits, from_logits=True)`). -/
noncomputable def entropyTermRaw (logits : List (List ℝ)) : ℝ :=
  (logits.map fun L => softmaxCEWithLogits L L).sum / logits.length

/-- The vector policy_loss - self.params["entropy"] * entropy_loss
returned by `A2CAgent._logits_loss` (the policy loss broadcasts over the
per-sample entropy entries). -/
noncomputable def logitsLossVec (actsAdvs : List (ℕ × ℝ))
    (logits : List (List ℝ)) : List ℝ :=
  let policyLoss :=
    (List.zipWith (fun p L => p.2 * sparseCE p.1 L) actsAdvs logits).sum /
      logits.length
  logits.map fun L => policyLoss - entropyP * softmaxCEWithLogits L L

/-- The scalar loss Keras minimizes for the policy head: the mean of the
vector returned by `A2CAgent._logits_loss`. -/
noncomputable def logitsLoss (actsAdvs : List (ℕ × ℝ))
    (logits : List (List ℝ)) : ℝ :=
  (logitsLossVec actsAdvs logits).sum / logits.length

/-- Softmax probability of class `j` for a logits row. -/
noncomputable def softmaxProb (L : List ℝ) (j : ℕ) : ℝ :=
  Real.exp (L.getD j 0) / (L.map Real.exp).sum

/-- The softmax distribution of a logits row as a list. -/
noncomputable def softmaxList (L : List ℝ) : List ℝ :=
  (List.range L.length).map (softmaxProb L)

/-- Modelled from the spec: the entropy of the logits-derived
distribution, `-Σ_j p_j * log p_j` with `p = softmax(L)`. -/
noncomputable def distEntropy (L : List ℝ) : ℝ :=
  -(((List.range L.length).map fun j =>
      softmaxProb L j * Real.log (softmaxProb L j)).sum)

/-- Modelled from the spec: `weighted_sparse_cross_entropy -
entropy_coefficient * entropy(logits)` with `entropy` the true entropy of
the softmax distribution (mean over the batch). -/
noncomputable def specLogitsLoss (actsAdvs : List (ℕ × ℝ))
    (logits : List (List ℝ)) : ℝ :=
  weightedSparseCE actsAdvs logits -
    entropyP * ((logits.map distEntropy).sum / logits.length)

theorem log_softmaxProb (L : List ℝ) (j : ℕ) (hj : j < L.length) :
    Real.log (softmaxProb L j) = logSoftmax L j := by
  have hne : L ≠ [] := by
    intro h
    rw [h] at hj
    exact Nat.not_lt_zero j hj
  have hpos : 0 < (L.map Real.exp).sum := by
    apply List.sum_pos
    · intro a ha
      rcases List.mem_map.mp ha with ⟨x, _, hx⟩
      exact hx ▸ Real.exp_pos x
    · simpa using hne
  unfold softmaxProb logSoftmax logSumExp
  rw [Real.log_div (Real.exp_ne_zero _) (ne_of_gt hpos), Real.log_exp]

/-- Passing the softmax probabilities as the targets of
`categorical_crossentropy(·, L, from_logits=True)` does recover the true
entropy — the source passes the raw logits instead. -/
theorem softmaxCEWithLogits_softmax (L : List ℝ) :
    softmaxCEWithLogits (softmaxList L) L = distEntropy L := by
  unfold softmaxCEWithLogits distEntropy
  congr 1
  refine congrArg List.sum ?_
  apply List.map_congr_left
  intro j hj
  have hj' : j < L.length := List.mem_range.mp hj
  have hget : (softmaxList L).getD j 0 = softmaxProb L j := by
    unfold softmaxList
    rw [List.getD_eq_getElem _ _ (by simpa using hj')]
    simp
  rw [hget, log_softmaxProb L j hj']

/-- C4 counterexample: for the single-sample batch with taken action 0,
advantage 1 and logits `[0, 0]`, the loss computed by `_logits_loss` is
`log 2` (its entropy term vanishes because the raw logits are zero),
while the spec's formula subtracts `0.0001 * log 2` of true entropy: the
two disagree. -/
theorem logitsLoss_entropy_counterexample :
    logitsLoss [(0, 1)] [[0, 0]] ≠ specLogitsLoss [(0, 1)] [[0, 0]] := by
  have hlog : 0 < Real.log 2 := Real.log_pos (by norm_num)
  have h1 : logitsLoss [(0, 1)] [[0, 0]] = Real.log 2 := by
    unfold logitsLoss logitsLossVec sparseCE logSoftmax logSumExp
      softmaxCEWithLogits
    norm_num [List.range_succ, Real.exp_zero]
  have h2 : specLogitsLoss [(0, 1)] [[0, 0]] =
      Real.log 2 - entropyP * Real.log 2 := by
    unfold specLogitsLoss weightedSparseCE distEntropy softmaxProb sparseCE
      logSoftmax logSumExp
    norm_num [List.range_succ, Real.exp_zero]
    left
    rw [one_div, Real.log_inv]
    ring
  rw [h1, h2]
  unfold entropyP
  intro h
  nlinarith

theorem sum_map_const_sub {α : Type} (l : List α) (c k : ℝ) (f : α → ℝ) :
    (l.map fun x => c - k * f x).sum = l.length * c - k * (l.map f).sum := by
  induction l with
  | nil => simp
  | cons a t ih =>
      simp only [List.map_cons, List.sum_cons, ih, List.length_cons]
      push_cast
      ring

/-- C4 (amended): the loss decomposes as the advantage-weighted sparse
cross-entropy minus `entropyP = 0.0001` times the raw-logits
cross-entropy term (sign subtracted); that term equals the true entropy
of the softmax distribution only when the softmax probabilities, not the
raw logits, are the targets. -/
theorem logitsLoss_decomposition (actsAdvs : List (ℕ × ℝ))
    (logits : List (List ℝ)) :
    (logitsLoss actsAdvs logits =
      weightedSparseCE actsAdvs logits -
        entropyP * entropyTermRaw logits) ∧
    ∀ L : List ℝ, softmaxCEWithLogits (softmaxList L) L = distEntropy L := by
  refine ⟨?_, softmaxCEWithLogits_softmax⟩
  unfold logitsLoss logitsLossVec weightedSparseCE entropyTermRaw
  rcases logits with _ | ⟨L0, ls⟩
  · simp
  · have hn : (((L0 :: ls).length : ℕ) : ℝ) ≠ 0 :=
      Nat.cast_ne_zero.mpr (by simp)
    rw [sum_map_const_sub]
    field_simp

/-! ### The model (`Model.call` / `Model.action_value`)

Dense layers over exact rationals; the stochastic categorical sampler of
`ProbabilityDistribution` is abstracted as an oracle `List ℚ → ℤ` drawing
one action index per logits row. -/

/-- ReLU activation. -/
def relu (x : ℚ) : ℚ := max 0 x

/-- Dot product of a weight row with an input vector. -/
def dot (w x : List ℚ) : ℚ := (List.zipWith (· * ·) w x).sum

/-- A Keras `Dense` layer before activation: one output per weight row. -/
def denseLayer (W : List (List ℚ)) (b : List ℚ) (x : List ℚ) : List ℚ :=
  List.zipWith (fun w bi => dot w x + bi) W b

/-- The learned parameters of `Model`: the two hidden layers (`actor`,
`critic`, 128 units, ReLU), the `value` head (`Dense(1)`: one weight
row, one bias entry) and the `policy_logits` head. -/
structure ModelParams where
  actorW : List (List ℚ)
  actorB : List ℚ
  criticW : List (List ℚ)
  criticB : List ℚ
  valueW : List (List ℚ)
  valueB : List ℚ
  logitsW : List (List ℚ)
  logitsB : List ℚ

/-- Method `Model.call` on one observation row: two separate hidden
layers from the same input, then the logits head and the value head
(whose output row has one entry per `value` unit — length 1 for the
source's `Dense(1)`). -/
def modelCall (p : ModelParams) (x : List ℚ) : List ℚ × List ℚ :=
  let hiddenLogs := (denseLayer p.actorW p.actorB x).map relu
  let hiddenVals := (denseLayer p.criticW p.criticB x).map relu
  (denseLayer p.logitsW p.logitsB hiddenLogs,
    denseLayer p.valueW p.valueB hiddenVals)

/-- Method `Model.predict` over an observation batch: `call` row by row,
logits of shape `(k, num_actions)` and values of shape `(k, 1)`. -/
def modelPredict (p : ModelParams) (X : List (List ℚ)) :
    List (List ℚ) × List (List ℚ) :=
  (X.map fun x => (modelCall p x).1, X.map fun x => (modelCall p x).2)

/-- Call `np.squeeze(action, axis=-1)`: `self.dist.predict(logits)`
already returns a 1-D array of `k` sampled actions (its
`ProbabilityDistribution.call` squeezed the trailing axis of the
`(k, 1)` categorical sample), so the last axis of `action` has size `k`;
numpy squeezes it only when `k = 1` (yielding the scalar) and raises
`ValueError` otherwise, modelled as `none`. -/
def squeezeLastAction (l : List ℤ) : Option ℤ :=
  if l.length = 1 then some (l.headD 0) else none

/-- Call `np.squeeze(value, axis=-1)`: the value output has shape
`(k, 1)`, so the trailing axis is dropped, one scalar per row; numpy
raises unless every row has size 1. -/
def squeezeLastValue (rows : List (List ℚ)) : Option (List ℚ) :=
  if rows.all fun r => r.length = 1 then
    some (rows.map fun r => r.headD 0)
  else none

/-- Method `Model.action_value`: predict logits and values, sample one
action per logits row, then `np.squeeze` the action array and the value
array along their last axes; the action squeeze fails for any batch
larger than one. -/
def action_value (p : ModelParams) (sampler : List ℚ → ℤ)
    (X : List (List ℚ)) : Option (ℤ × List ℚ) :=
  match squeezeLastAction ((modelPredict p X).1.map sampler) with
  | none => none
  | some a =>
      match squeezeLastValue (modelPredict p X).2 with
      | none => none
      | some v => some (a, v)

/-- Concrete parameters (`Dense(1)` value head) for the `action_value`
counterexample and witness. -/
def c9Params : ModelParams :=
  ⟨[[1]], [0], [[1]], [0], [[1]], [0], [[1], [2]], [0, 0]⟩

/-- A concrete sampler oracle: any fixed rule serves the shape
property. -/
def c9Sampler : List ℚ → ℤ := fun L => (L.headD 0).num

/-- C9 counterexample: `action_value` on the two-observation batch
`[[1], [2]]` does not succeed: the sampled-action array already has
shape `(2,)`, `np.squeeze(action, axis=-1)` cannot remove a size-2 axis,
and the call raises `ValueError` (modelled as `none`) instead of
returning one action and one value per observation. -/
theorem action_value_batch_counterexample :
    action_value c9Params c9Sampler [[1], [2]] = none := by
  norm_num [action_value, modelPredict, squeezeLastAction]

/-- C9 (amended): with the source's `Dense(1)` value head,
`action_value` succeeds on observation batches of size 1, returning the
sampled action and the single value estimate for that observation; on
any batch with more than one observation the trailing
`np.squeeze(action, axis=-1)` fails (the sampled-action array is 1-D of
length `k > 1`), so the call raises instead of returning per-row
results. -/
theorem action_value_squeeze_semantics (p : ModelParams)
    (sampler : List ℚ → ℤ) (hW : p.valueW.length = 1)
    (hB : p.valueB.length = 1) :
    (∀ obs : List ℚ, action_value p sampler [obs] =
      some (sampler (modelCall p obs).1,
        [(modelCall p obs).2.getD 0 0])) ∧
    ∀ X : List (List ℚ), 1 < X.length →
      action_value p sampler X = none := by
  constructor
  · intro obs
    have hlen : ((modelCall p obs).2).length = 1 := by
      simp [modelCall, denseLayer, List.length_zipWith, hW, hB]
    obtain ⟨v, hv⟩ := List.length_eq_one.mp hlen
    simp [action_value, modelPredict, squeezeLastAction, squeezeLastValue,
      hv]
  · intro X hX
    rcases X with _ | ⟨x1, X1⟩
    · simp at hX
    rcases X1 with _ | ⟨x2, X2⟩
    · simp at hX
    simp [action_value, modelPredict, squeezeLastAction]

/-- Witness for `action_value_squeeze_semantics`: the concrete model
answers a singleton batch and fails a two-row batch. -/
theorem action_value_squeeze_semantics_witness :
    c9Params.valueW.length = 1 ∧ c9Params.valueB.length = 1 ∧
    action_value c9Params c9Sampler [[3]] =
      some (c9Sampler (modelCall c9Params [3]).1,
        [(modelCall c9Params [3]).2.getD 0 0]) ∧
    1 < ([[5], [7]] : List (List ℚ)).length ∧
    action_value c9Params c9Sampler [[5], [7]] = none :=
  ⟨rfl, rfl,
    (action_value_squeeze_semantics c9Params c9Sampler rfl rfl).1 [3],
    by norm_num,
    (action_value_squeeze_semantics c9Params c9Sampler rfl rfl).2
      [[5], [7]] (by norm_num)⟩

/-! ### The `_returns_advantages` body as in-place array code

To settle the frame claim, the method body is also translated statement
by statement over a store of the numpy arrays it can reach: the three
input arrays and the buffer it allocates.  The backward loop writes only
into the fresh `returns` buffer. -/

/-- The arrays reachable from `_returns_advantages`: its three inputs
and the freshly allocated `returns` buffer. -/
structure NumpyStore where
  rewards : List ℚ
  dones : List Bool
  values : List ℚ
  returns : List ℚ

/-- Buffer `np.append(np.zeros_like(rewards), next_value, axis=-1)`: an
`n + 1`-slot buffer, zeros then the bootstrap value. -/
def returnsInit (rewards : List ℚ) (next_value : ℚ) : List ℚ :=
  List.replicate rewards.length 0 ++ [next_value]

/-- One loop iteration `returns[t] = rewards[t] + gamma * returns[t+1] *
(1 - dones[t])`: an in-place write to the `returns` buffer; the inputs
are only read. -/
def storeLoopStep (t : ℕ) (s : NumpyStore) : NumpyStore :=
  { s with
      returns := s.returns.set t (s.rewards.getD t 0 +
        gammaP * s.returns.getD (t + 1) 0 *
          doneFactor (s.dones.getD t false)) }

/-- Loop `for t in reversed(range(rewards.shape[0]))`: with fuel `t`, process
indices `t - 1` down to `0`. -/
def storeLoop : ℕ → NumpyStore → NumpyStore
  | 0, s => s
  | t + 1, s => storeLoop t (storeLoopStep t s)

/-- Method `_returns_advantages` over the store: allocate the buffer, run the
backward loop in place, slice off the bootstrap slot, subtract values;
the final store is returned alongside the outputs. -/
def returnsAdvantagesRun (rw : List ℚ) (dn : List Bool) (vs : List ℚ)
    (nv : ℚ) : (List ℚ × List ℚ) × NumpyStore :=
  let s := storeLoop rw.length ⟨rw, dn, vs, returnsInit rw nv⟩
  let rets := s.returns.dropLast
  ((rets, List.zipWith (· - ·) rets s.values), s)

theorem storeLoop_frame : ∀ (t : ℕ) (s : NumpyStore),
    (storeLoop t s).rewards = s.rewards ∧
    (storeLoop t s).dones = s.dones ∧
    (storeLoop t s).values = s.values
  | 0, _ => ⟨rfl, rfl, rfl⟩
  | t + 1, s => storeLoop_frame t (storeLoopStep t s)

theorem storeLoop_correct (rw vs : List ℚ) (dn : List Bool) (nv : ℚ)
    (hlen : dn.length = rw.length) :
    ∀ (t : ℕ) (arr : List ℚ), t ≤ rw.length →
      arr.length = rw.length + 1 →
      (∀ i, t ≤ i → i ≤ rw.length →
        arr.getD i 0 =
          (computeReturns gammaP nv rw dn ++ [nv]).getD i 0) →
      (storeLoop t ⟨rw, dn, vs, arr⟩).returns =
        computeReturns gammaP nv rw dn ++ [nv]
  | 0, arr => fun _ hlen' hinv => by
      have hFF : (computeReturns gammaP nv rw dn ++ [nv]).length =
          rw.length + 1 := by
        simp [computeReturns_length gammaP nv rw dn hlen]
      show arr = _
      apply List.ext_getElem (by rw [hlen', hFF])
      intro i hi1 hi2
      have h := hinv i (Nat.zero_le i) (by omega)
      rwa [List.getD_eq_getElem _ _ hi1, List.getD_eq_getElem _ _ hi2] at h
  | t + 1, arr => fun ht hlen' hinv => by
      show (storeLoop t (storeLoopStep t ⟨rw, dn, vs, arr⟩)).returns = _
      have hlenC := computeReturns_length gammaP nv rw dn hlen
      have htlt : t < arr.length := by omega
      apply storeLoop_correct rw vs dn nv hlen t _ (by omega) (by simp [hlen'])
      intro i hi1 hi2
      by_cases hit : i = t
      · subst hit
        have hset : (arr.set i (rw.getD i 0 +
            gammaP * arr.getD (i + 1) 0 *
              doneFactor (dn.getD i false))).getD i 0 =
            rw.getD i 0 + gammaP * arr.getD (i + 1) 0 *
              doneFactor (dn.getD i false) := by
          rw [List.getD_eq_getElem _ _ (by simpa using htlt)]
          exact List.getElem_set_self ..
        have hnext : arr.getD (i + 1) 0 =
            (computeReturns gammaP nv rw dn).getD (i + 1) nv := by
          rw [hinv (i + 1) (le_refl _) (by omega)]
          by_cases hlast : i + 1 < rw.length
          · rw [List.getD_append _ _ _ _ (by omega),
              List.getD_eq_getElem _ _ (by omega),
              List.getD_eq_getElem _ _ (by omega)]
          · have hieq : i + 1 = rw.length := by omega
            have hL : (computeReturns gammaP nv rw dn ++ [nv]).getD
                (i + 1) 0 = nv := by
              rw [hieq, List.getD_append_right _ _ _ _ hlenC.le, hlenC]
              simp
            have hR : (computeReturns gammaP nv rw dn).getD (i + 1) nv =
                nv := List.getD_eq_default _ _ (by omega)
            rw [hL, hR]
        have hcur : (computeReturns gammaP nv rw dn ++ [nv]).getD i 0 =
            (computeReturns gammaP nv rw dn).getD i 0 :=
          List.getD_append _ _ _ _ (by omega)
        rw [hset, hnext, hcur,
          computeReturns_getD gammaP nv rw dn hlen i (by omega)]
      · have hgt : t + 1 ≤ i := by omega
        have hle : i < (arr.set t (rw.getD t 0 +
            gammaP * arr.getD (t + 1) 0 *
              doneFactor (dn.getD t false))).length := by
          simp
          omega
        rw [List.getD_eq_getElem _ _ hle,
          List.getElem_set_ne (fun h => hit h.symm),
          ← List.getD_eq_getElem arr 0 (by simpa using hle)]
        exact hinv i (by omega) hi2

/-- C10: `_returns_advantages` is pure: it is deterministic, the store
after the call holds the input arrays unchanged (the backward loop wrote
only into the freshly allocated buffer), and the outputs are the
functional `returnsAdvantages`. -/
theorem returnsAdvantages_pure (rw vs : List ℚ) (dn : List Bool) (nv : ℚ)
    (hlen : dn.length = rw.length) :
    ((returnsAdvantagesRun rw dn vs nv).2.rewards = rw ∧
     (returnsAdvantagesRun rw dn vs nv).2.dones = dn ∧
     (returnsAdvantagesRun rw dn vs nv).2.values = vs) ∧
    (returnsAdvantagesRun rw dn vs nv).1 =
      returnsAdvantages rw dn vs nv ∧
    ∀ rw2 vs2 dn2 nv2, rw = rw2 → dn = dn2 → vs = vs2 → nv = nv2 →
      returnsAdvantagesRun rw dn vs nv =
        returnsAdvantagesRun rw2 dn2 vs2 nv2 := by
  have hframe := storeLoop_frame rw.length ⟨rw, dn, vs, returnsInit rw nv⟩
  have hcorrect := storeLoop_correct rw vs dn nv hlen rw.length
    (returnsInit rw nv) (le_refl _)
    (by simp [returnsInit])
    (by
      intro i hi1 hi2
      have hieq : i = rw.length := by omega
      subst hieq
      rw [returnsInit, List.getD_append_right _ _ _ _ (by simp),
        List.getD_append_right _ _ _ _
          (by simp [computeReturns_length gammaP nv rw dn hlen])]
      simp [computeReturns_length gammaP nv rw dn hlen])
  refine ⟨⟨?_, ?_, ?_⟩, ?_, ?_⟩
  · simpa [returnsAdvantagesRun] using hframe.1
  · simpa [returnsAdvantagesRun] using hframe.2.1
  · simpa [returnsAdvantagesRun] using hframe.2.2
  · simp only [returnsAdvantagesRun, returnsAdvantages, hcorrect,
      hframe.2.2, List.dropLast_concat]
  · intro rw2 vs2 dn2 nv2 h1 h2 h3 h4
    rw [h1, h2, h3, h4]

/-- Witness for `returnsAdvantages_pure` at the spec's 4-step batch. -/
theorem returnsAdvantages_pure_witness :
    (returnsAdvantagesRun [1, 1, 1, 1] [false, false, false, true]
        [0, 0, 0, 0] 0).2.rewards = [1, 1, 1, 1] ∧
    (returnsAdvantagesRun [1, 1, 1, 1] [false, false, false, true]
        [0, 0, 0, 0] 0).1 =
      returnsAdvantages [1, 1, 1, 1] [false, false, false, true]
        [0, 0, 0, 0] 0 :=
  ⟨(returnsAdvantages_pure [1, 1, 1, 1] [0, 0, 0, 0]
      [false, false, false, true] 0 (by simp)).1.1,
   (returnsAdvantages_pure [1, 1, 1, 1] [0, 0, 0, 0]
      [false, false, false, true] 0 (by simp)).2.1⟩

end A2C
